import Mathlib

/-!
A verification development for `rulefit_feature_generator.py`.

The single source file exposes `create_tree_rule_filters(X_values, tree)`,
which walks a fitted sklearn decision tree in preorder and, for every node
whose root-to-node index path has more than two entries, inserts into a
dict a human-readable rule name mapped to a boolean Series saying which
dataset rows satisfy every ancestor split of that node.

The embedding below mirrors the Python faithfully: numpy / list indexing
and pandas `iloc` column selection are fallible (`Except String`, the
error string naming the Python exception class), the scalar `True`
accumulator of `_create_rule_filter` is a distinct constructor of
`PySeries`, the recursion of `_traverse` carries explicit fuel (running
out corresponds to Python's RecursionError, reachable only on malformed
cyclic inputs), and the shared `rules_dict` is threaded as an explicit
accumulator with Python's overwrite-in-place dict insertion.
Real-valued features and thresholds are modelled as rationals.
-/

namespace RuleFit

/-- Equality of `Except` values is decidable componentwise. -/
instance {ε α : Type} [DecidableEq ε] [DecidableEq α] : DecidableEq (Except ε α) := fun a b =>
  match a, b with
  | .ok x, .ok y =>
    if h : x = y then isTrue (by rw [h]) else isFalse (fun hh => h (Except.ok.inj hh))
  | .error x, .error y =>
    if h : x = y then isTrue (by rw [h]) else isFalse (fun hh => h (Except.error.inj hh))
  | .ok _, .error _ => isFalse (fun hh => by cases hh)
  | .error _, .ok _ => isFalse (fun hh => by cases hh)

/-- A fitted sklearn decision tree, as four parallel arrays indexed by node id.
A negative child entry is the "no child" sentinel; node 0 is the root. -/
structure Tree where
  children_left : List Int
  children_right : List Int
  feature : List Int
  threshold : List ℚ
deriving Repr, DecidableEq

/-- The dataset `X_values`: an ordered list of named columns of equal length. -/
structure Dataset where
  cols : List (String × List ℚ)
deriving Repr, DecidableEq

/-- Indexing a numpy array or Python list at a nonnegative position:
out-of-bounds raises IndexError. -/
def npGet {α : Type} (xs : List α) (i : Nat) : Except String α :=
  match xs.get? i with
  | some x => .ok x
  | none => .error "IndexError"

/-- Selecting one column of a DataFrame by integer position, pandas
`iloc` semantics: a negative index in `[-n, 0)` counts from the end,
anything outside `[-n, n)` raises IndexError. -/
def ilocCol (X : Dataset) (i : Int) : Except String (String × List ℚ) :=
  let n : Int := X.cols.length
  if 0 ≤ i ∧ i < n then npGet X.cols i.toNat
  else if -n ≤ i ∧ i < 0 then npGet X.cols (i + n).toNat
  else .error "IndexError"

/-- Python `X_values.iloc[:, idxs]`: select the columns at the given integer
positions, in order (duplicates allowed). -/
def ilocCols (X : Dataset) (idxs : List Int) : Except String (List (String × List ℚ)) :=
  idxs.mapM (ilocCol X)

/-- A pandas boolean Series value as it flows through `_create_rule_filter`:
the accumulator starts as the Python scalar `True` and becomes a Series
after the first `&`. -/
inductive PySeries where
  | scalarTrue : PySeries
  | series : List Bool → PySeries
deriving Repr, DecidableEq

/-- Python `acc & srs` where `acc` is `True` or a boolean Series and `srs`
a boolean Series: `True & srs` is `srs`, and Series `&` Series is
elementwise conjunction. -/
def pandasAnd : PySeries → List Bool → PySeries
  | .scalarTrue, v => .series v
  | .series a, v => .series (List.zipWith and a v)

/-- Model of `_create_single_filter(srs, threshold, direction)`: elementwise
`srs <= threshold` for 'left', `srs > threshold` for 'right'; any other
direction falls through and returns `None`. -/
def _create_single_filter (srs : List ℚ) (threshold : ℚ) (direction : String) :
    Option (List Bool) :=
  if direction = "left" then some (srs.map (fun v => decide (v ≤ threshold)))
  else if direction = "right" then some (srs.map (fun v => decide (threshold < v)))
  else none

/-- The `for i in range(len(direction_path))` loop of `_create_rule_filter`,
walking the selected columns, thresholds and directions in lockstep.
Exhausting the columns or thresholds early is `X_rule_values.iloc[:, i]` or
`thresholds[i]` raising IndexError; a `None` single filter makes the
subsequent `&` raise TypeError. -/
def ruleFilterGo : List (String × List ℚ) → List ℚ → List String → PySeries →
    Except String PySeries
  | _, _, [], acc => .ok acc
  | [], _, _ :: _, _ => .error "IndexError"
  | _ :: _, [], _ :: _, _ => .error "IndexError"
  | c :: cs, t :: ts, d :: ds, acc =>
    match _create_single_filter c.2 t d with
    | some v => ruleFilterGo cs ts ds (pandasAnd acc v)
    | none => .error "TypeError"

/-- Model of `_create_rule_filter`: fold the per-node filters with `&`,
starting from the scalar `True`. -/
def _create_rule_filter (X_rule_values : List (String × List ℚ))
    (thresholds : List ℚ) (direction_path : List String) : Except String PySeries :=
  ruleFilterGo X_rule_values thresholds direction_path .scalarTrue

/-- Model of `_create_single_filter_name(i)`: format
`"{col_name} {op} {threshold}"` with op `<=` for 'left' and `>` for 'right';
any other direction leaves the operator unbound (UnboundLocalError at the
format). -/
def _create_single_filter_name (X_rule_values : List (String × List ℚ))
    (thresholds : List ℚ) (direction_path : List String) (i : Nat) :
    Except String String := do
  let col ← npGet X_rule_values i
  let threshold_val ← npGet thresholds i
  let dir ← npGet direction_path i
  if dir = "left" then .ok (col.1 ++ " <= " ++ toString threshold_val)
  else if dir = "right" then .ok (col.1 ++ " > " ++ toString threshold_val)
  else .error "UnboundLocalError"

/-- Model of `_create_rule_filter_name`: build one name per direction
position and combine them with `reduce(_combine_filter_names, ...)`, i.e. a
left fold inserting `" & "`; `reduce` on an empty list raises TypeError. -/
def _create_rule_filter_name (X_rule_values : List (String × List ℚ))
    (thresholds : List ℚ) (direction_path : List String) : Except String String := do
  let filter_names ← (List.range direction_path.length).mapM
      (_create_single_filter_name X_rule_values thresholds direction_path)
  match filter_names with
  | [] => .error "TypeError"
  | h :: t => .ok (t.foldl (fun a b => a ++ " & " ++ b) h)

/-- Python dict insertion `rules_dict[k] = v`: overwrite in place if the
key exists (keeping its position), else append. -/
def dictInsert (d : List (String × PySeries)) (k : String) (v : PySeries) :
    List (String × PySeries) :=
  if d.any (fun p => p.1 == k) then
    d.map (fun p => if p.1 == k then (k, v) else p)
  else d ++ [(k, v)]

/-- The body of the `len(rule_path) > 2` branch of `_traverse` (source
lines 41-51): select `X_values.iloc[:, tree.feature[rule_path]]` and
`tree.threshold[rule_path]`, then build the boolean Series and the rule
name for this path. -/
def materializeRule (tree : Tree) (X_values : Dataset) (rule_path : List Nat)
    (direction_path : List String) : Except String (String × PySeries) := do
  let features ← rule_path.mapM (fun j => npGet tree.feature j)
  let X_rule_values ← ilocCols X_values features
  let thresholds ← rule_path.mapM (fun j => npGet tree.threshold j)
  let srs ← _create_rule_filter X_rule_values thresholds direction_path
  let nm ← _create_rule_filter_name X_rule_values thresholds direction_path
  .ok (nm, srs)

/-- Model of `_traverse(parent_index, rule_path, direction_path)` threading
the shared `rules_dict` explicitly; `fuel` bounds the recursion depth
(running out models Python's RecursionError, which on an acyclic in-bounds
tree is never reached with the fuel chosen by `create_tree_rule_filters`). -/
def _traverse (tree : Tree) (X_values : Dataset) :
    Nat → Nat → List Nat → List String → List (String × PySeries) →
    Except String (List (String × PySeries))
  | 0, _, _, _, _ => .error "RecursionError"
  | fuel + 1, parent_index, rule_path0, direction_path, rules_dict0 =>
    npGet tree.children_left parent_index >>= fun left_child_index =>
    npGet tree.children_right parent_index >>= fun right_child_index =>
    (if (rule_path0 ++ [parent_index]).length > 2 then
       materializeRule tree X_values (rule_path0 ++ [parent_index]) direction_path >>=
         fun kv => .ok (dictInsert rules_dict0 kv.1 kv.2)
     else .ok rules_dict0) >>= fun rules_dict1 =>
    (if left_child_index ≥ 0 then
       _traverse tree X_values fuel left_child_index.toNat (rule_path0 ++ [parent_index])
         (direction_path ++ ["left"]) rules_dict1
     else .ok rules_dict1) >>= fun rules_dict2 =>
    (if right_child_index ≥ 0 then
       _traverse tree X_values fuel right_child_index.toNat (rule_path0 ++ [parent_index])
         (direction_path ++ ["right"]) rules_dict2
     else .ok rules_dict2)

/-- Model of `create_tree_rule_filters(X_values, tree)`: preorder traversal
from the root with empty path accumulators and an empty rules dict. -/
def create_tree_rule_filters (X_values : Dataset) (tree : Tree) :
    Except String (List (String × PySeries)) :=
  _traverse tree X_values (tree.children_left.length + 1) 0 [] [] []

/-- Which child (as recorded in the tree's arrays) node `a` has in
direction `d` — used to reconstruct ancestor chains independently of the
traversal. -/
def childAt (tree : Tree) (a : Nat) (d : String) : Option Int :=
  if d = "left" then tree.children_left.get? a
  else if d = "right" then tree.children_right.get? a
  else none

/-- `chainB tree path dirs` holds when consecutive entries of `path` are
linked by the recorded child edges in the recorded directions; it forces
`dirs` to be exactly one shorter than `path`. -/
def chainB (tree : Tree) : List Nat → List String → Bool
  | [_], [] => true
  | a :: b :: ps, d :: ds =>
    (childAt tree a d == some (Int.ofNat b)) && chainB tree (b :: ps) ds
  | _, _ => false

/-- A chain that additionally starts at the root node 0. -/
def rootChainB (tree : Tree) (path : List Nat) (dirs : List String) : Bool :=
  (path.head? == some 0) && chainB tree path dirs

/-- A bind in the `Except` monad yields `ok` exactly when both stages do. -/
theorem except_bind_ok {ε α β : Type} (x : Except ε α) (k : α → Except ε β) (y : β) :
    (x >>= k) = .ok y ↔ ∃ a, x = .ok a ∧ k a = .ok y := by
  cases x with
  | error e => simp [Bind.bind, Except.bind]
  | ok a => simp [Bind.bind, Except.bind]

/-- Successful numpy indexing is exactly in-bounds list lookup. -/
theorem npGet_ok {α : Type} {xs : List α} {i : Nat} {x : α} (h : npGet xs i = .ok x) :
    xs.get? i = some x := by
  unfold npGet at h
  cases hg : xs.get? i with
  | none => rw [hg] at h; exact Except.noConfusion h
  | some y => rw [hg] at h; injection h with h; rw [h]

/-- In-bounds list lookup gives successful numpy indexing. -/
theorem npGet_of_get? {α : Type} {xs : List α} {i : Nat} {x : α}
    (h : xs.get? i = some x) : npGet xs i = .ok x := by
  unfold npGet
  rw [h]

/-- A successful `mapM` in `Except` preserves length. -/
theorem mapM_ok_length {α β : Type} (f : α → Except String β) :
    ∀ (xs : List α) (ys : List β), xs.mapM f = .ok ys → ys.length = xs.length := by
  intro xs
  induction xs with
  | nil =>
    intro ys h
    simp only [List.mapM_nil, pure, Except.pure] at h
    injection h with h
    simp [← h]
  | cons a as ih =>
    intro ys h
    rw [List.mapM_cons, except_bind_ok] at h
    obtain ⟨b, _, h⟩ := h
    rw [except_bind_ok] at h
    obtain ⟨bs, hbs, h⟩ := h
    simp only [pure, Except.pure] at h
    injection h with h
    rw [← h]
    simp [ih bs hbs]

/-- Every element of a successfully `mapM`ed list was itself mapped
successfully. -/
theorem mapM_ok_forall {α β : Type} (f : α → Except String β) :
    ∀ (xs : List α) (ys : List β), xs.mapM f = .ok ys → ∀ x ∈ xs, ∃ y, f x = .ok y := by
  intro xs
  induction xs with
  | nil => intro ys _ x hx; simp at hx
  | cons a as ih =>
    intro ys h x hx
    rw [List.mapM_cons, except_bind_ok] at h
    obtain ⟨b, hb, h⟩ := h
    rw [except_bind_ok] at h
    obtain ⟨bs, hbs, _⟩ := h
    rcases List.mem_cons.mp hx with rfl | hmem
    · exact ⟨b, hb⟩
    · exact ih bs hbs x hmem

/-- Pointwise successful mapping computes `mapM` in `Except`. -/
theorem mapM_ok_of_forall {α β : Type} (f : α → Except String β) (g : α → β) :
    ∀ (xs : List α), (∀ a ∈ xs, f a = .ok (g a)) → xs.mapM f = .ok (xs.map g) := by
  intro xs
  induction xs with
  | nil => intro _; simp [List.mapM_nil]; rfl
  | cons a as ih =>
    intro hall
    rw [List.mapM_cons]
    rw [hall a (List.mem_cons_self a as), ih (fun b hb => hall b (List.mem_cons_of_mem a hb))]
    rfl

/-- `mapM` in `Except` over an appended list splits into the two halves. -/
theorem mapM_append_except {α β : Type} (f : α → Except String β) :
    ∀ (xs zs : List α), (xs ++ zs).mapM f =
      (xs.mapM f >>= fun as => zs.mapM f >>= fun bs => pure (as ++ bs)) := by
  intro xs zs
  induction xs with
  | nil =>
    simp only [List.nil_append, List.mapM_nil]
    cases h : zs.mapM f <;> simp [Bind.bind, Except.bind, pure, Except.pure]
  | cons a as ih =>
    simp only [List.cons_append, List.mapM_cons, ih]
    cases hfa : f a with
    | error e => simp [Bind.bind, Except.bind]
    | ok b =>
      cases has : as.mapM f with
      | error e => simp [Bind.bind, Except.bind]
      | ok bs =>
        cases hzs : zs.mapM f <;>
          simp [Bind.bind, Except.bind, pure, Except.pure]

/-- Entries of a Python dict after insertion: either an old entry or the
newly written pair. -/
theorem dictInsert_mem {d : List (String × PySeries)} {k : String} {v : PySeries}
    {kv : String × PySeries} (h : kv ∈ dictInsert d k v) : kv ∈ d ∨ kv = (k, v) := by
  unfold dictInsert at h
  split at h
  · obtain ⟨p, hp, hpe⟩ := List.mem_map.mp h
    by_cases hk : (p.1 == k) = true
    · right; rw [if_pos hk] at hpe; exact hpe.symm
    · left; rw [if_neg hk] at hpe; exact hpe ▸ hp
  · rcases List.mem_append.mp h with h1 | h1
    · exact Or.inl h1
    · right; simpa using h1

/-- A chain's node list is one longer than its direction list. -/
theorem chainB_length (tree : Tree) :
    ∀ dirs path, chainB tree path dirs = true → path.length = dirs.length + 1 := by
  intro dirs
  induction dirs with
  | nil =>
    intro path h
    match path with
    | [] => simp [chainB] at h
    | [a] => rfl
    | a :: b :: ps => simp [chainB] at h
  | cons d0 ds ih =>
    intro path h
    match path with
    | [] => simp [chainB] at h
    | [a] => simp [chainB] at h
    | a :: b :: ps =>
      rw [chainB] at h
      have h2 := (Bool.and_eq_true _ _).mp h |>.2
      have hlen := ih (b :: ps) h2
      simp only [List.length_cons] at hlen ⊢
      omega

/-- Extending a chain by one recorded child edge at its last node. -/
theorem chainB_snoc (tree : Tree) :
    ∀ dirs path a d c, chainB tree path dirs = true → path.getLast? = some a →
      childAt tree a d = some c → 0 ≤ c →
      chainB tree (path ++ [c.toNat]) (dirs ++ [d]) = true := by
  intro dirs
  induction dirs with
  | nil =>
    intro path a d c h hlast hchild hge
    match path with
    | [] => simp [chainB] at h
    | [x] =>
      have hax : x = a := by simpa using hlast
      show chainB tree (x :: c.toNat :: []) (d :: []) = true
      rw [chainB, Bool.and_eq_true]
      constructor
      · simp [hax, hchild, Int.toNat_of_nonneg hge]
      · rfl
    | x :: y :: ps => simp [chainB] at h
  | cons d0 ds ih =>
    intro path a d c h hlast hchild hge
    match path with
    | [] => simp [chainB] at h
    | [x] => simp [chainB] at h
    | x :: y :: ps =>
      rw [chainB] at h
      obtain ⟨h1, h2⟩ := (Bool.and_eq_true _ _).mp h
      have hlast2 : (y :: ps).getLast? = some a := by
        rwa [List.getLast?_cons_cons] at hlast
      have hext := ih (y :: ps) a d c h2 hlast2 hchild hge
      show chainB tree (x :: ((y :: ps) ++ [c.toNat])) (d0 :: (ds ++ [d])) = true
      rw [List.cons_append, chainB, Bool.and_eq_true]
      exact ⟨h1, hext⟩

/-- Every direction of a valid chain is the literal 'left' or 'right'. -/
theorem chainB_dirs (tree : Tree) :
    ∀ dirs path, chainB tree path dirs = true → ∀ d ∈ dirs, d = "left" ∨ d = "right" := by
  intro dirs
  induction dirs with
  | nil => intro path _ d hd; simp at hd
  | cons d0 ds ih =>
    intro path h d hd
    match path with
    | [] => simp [chainB] at h
    | [a] => simp [chainB] at h
    | a :: b :: ps =>
      rw [chainB] at h
      obtain ⟨h1, h2⟩ := (Bool.and_eq_true _ _).mp h
      rcases List.mem_cons.mp hd with rfl | hmem
      · by_contra hcon
        push_neg at hcon
        have hnone : childAt tree a d = none := by
          unfold childAt
          rw [if_neg hcon.1, if_neg hcon.2]
        rw [hnone] at h1
        simp at h1
      · exact ih (b :: ps) h2 d hmem

/-- Extending a root chain by one recorded child edge. -/
theorem rootChainB_extend {tree : Tree} {p : Nat} {rp : List Nat} {dp : List String}
    {d : String} {c : Int} (h : rootChainB tree (rp ++ [p]) dp = true)
    (hc : childAt tree p d = some c) (hge : 0 ≤ c) :
    rootChainB tree ((rp ++ [p]) ++ [c.toNat]) (dp ++ [d]) = true := by
  unfold rootChainB at h ⊢
  obtain ⟨h1, h2⟩ := (Bool.and_eq_true _ _).mp h
  have hlast : (rp ++ [p]).getLast? = some p := List.getLast?_concat _
  have h3 := chainB_snoc tree dp (rp ++ [p]) p d c h2 hlast hc hge
  rw [Bool.and_eq_true]
  refine ⟨?_, h3⟩
  cases rp with
  | nil => simpa using h1
  | cons x xs => simpa using h1

/-- Every entry of a completed traversal's dict either predates the call or
was materialized at some root chain of more than two nodes. -/
theorem traverse_provenance (tree : Tree) (X : Dataset) :
    ∀ fuel p rp dp d0 res,
      _traverse tree X fuel p rp dp d0 = .ok res →
      rootChainB tree (rp ++ [p]) dp = true →
      ∀ kv, kv ∈ res →
        kv ∈ d0 ∨
        ∃ path dirs, rootChainB tree path dirs = true ∧ path.length > 2 ∧
          materializeRule tree X path dirs = .ok kv := by
  intro fuel
  induction fuel with
  | zero =>
    intro p rp dp d0 res h
    have h0 : _traverse tree X 0 p rp dp d0 = Except.error "RecursionError" := rfl
    rw [h0] at h
    exact Except.noConfusion h
  | succ n ih =>
    intro p rp dp d0 res h hchain kv hkv
    simp only [_traverse, except_bind_ok] at h
    obtain ⟨l, hL, r, hR, d1, hD1, d2, hD2, hfin⟩ := h
    have hmem2 : kv ∈ d2 ∨
        ∃ path dirs, rootChainB tree path dirs = true ∧ path.length > 2 ∧
          materializeRule tree X path dirs = .ok kv := by
      by_cases hr : r ≥ 0
      · rw [if_pos hr] at hfin
        have hcr : childAt tree p "right" = some r := by
          have hget := npGet_ok hR
          simp only [childAt, if_neg (by decide : ¬("right" = "left")), if_pos rfl]
          exact hget
        have hch2 := rootChainB_extend hchain hcr hr
        exact ih r.toNat (rp ++ [p]) (dp ++ ["right"]) d2 res hfin hch2 kv hkv
      · rw [if_neg hr] at hfin
        injection hfin with hfin
        exact Or.inl (by rw [hfin]; exact hkv)
    have hmem1 : kv ∈ d1 ∨
        ∃ path dirs, rootChainB tree path dirs = true ∧ path.length > 2 ∧
          materializeRule tree X path dirs = .ok kv := by
      rcases hmem2 with hin2 | hex
      · by_cases hl : l ≥ 0
        · rw [if_pos hl] at hD2
          have hcl : childAt tree p "left" = some l := by
            have hget := npGet_ok hL
            simp only [childAt, if_pos rfl]
            exact hget
          have hch2 := rootChainB_extend hchain hcl hl
          exact ih l.toNat (rp ++ [p]) (dp ++ ["left"]) d1 d2 hD2 hch2 kv hin2
        · rw [if_neg hl] at hD2
          injection hD2 with hD2
          exact Or.inl (by rw [hD2]; exact hin2)
      · exact Or.inr hex
    rcases hmem1 with hin1 | hex
    · by_cases hlen : (rp ++ [p]).length > 2
      · rw [if_pos hlen, except_bind_ok] at hD1
        obtain ⟨kvM, hM, hD1⟩ := hD1
        injection hD1 with hD1
        rw [← hD1] at hin1
        rcases dictInsert_mem hin1 with hold | hnew
        · exact Or.inl hold
        · refine Or.inr ⟨rp ++ [p], dp, hchain, hlen, ?_⟩
          rw [hnew, Prod.mk.eta]
          exact hM
      · rw [if_neg hlen] at hD1
        injection hD1 with hD1
        exact Or.inl (by rw [hD1]; exact hin1)
    · exact Or.inr hex

/-- Bind after a successful `Except` step computes the continuation. -/
theorem except_ok_bind {ε α β : Type} (a : α) (k : α → Except ε β) :
    (Except.ok a >>= k) = k a := rfl

/-- One unfolding step of `_traverse` with positive fuel. -/
theorem traverse_succ (tree : Tree) (X : Dataset) (fuel p : Nat) (rp0 : List Nat)
    (dp : List String) (d0 : List (String × PySeries)) :
    _traverse tree X (fuel + 1) p rp0 dp d0 =
      (npGet tree.children_left p >>= fun l =>
       npGet tree.children_right p >>= fun r =>
       (if (rp0 ++ [p]).length > 2 then
          materializeRule tree X (rp0 ++ [p]) dp >>= fun kv =>
            .ok (dictInsert d0 kv.1 kv.2)
        else .ok d0) >>= fun d1 =>
       (if l ≥ 0 then
          _traverse tree X fuel l.toNat (rp0 ++ [p]) (dp ++ ["left"]) d1
        else .ok d1) >>= fun d2 =>
       (if r ≥ 0 then
          _traverse tree X fuel r.toNat (rp0 ++ [p]) (dp ++ ["right"]) d2
        else .ok d2)) := rfl

/-- Visiting a leaf whose rule path has exactly two entries adds nothing
and recurses nowhere. -/
theorem traverse_leaf_depth1 (tree : Tree) (X : Dataset) (M q : Nat)
    (rp0 : List Nat) (dp : List String) (d0 : List (String × PySeries)) (a b : Int)
    (hrp : rp0.length = 1)
    (ha : tree.children_left.get? q = some a) (hb : tree.children_right.get? q = some b)
    (ha0 : a < 0) (hb0 : b < 0) :
    _traverse tree X (M + 1) q rp0 dp d0 = .ok d0 := by
  have hlen2 : (rp0 ++ [q]).length = 2 := by simp [List.length_append, hrp]
  have hno : ¬ (rp0 ++ [q]).length > 2 := by omega
  have hano : ¬ a ≥ 0 := by omega
  have hbno : ¬ b ≥ 0 := by omega
  rw [traverse_succ, npGet_of_get? ha, except_ok_bind, npGet_of_get? hb, except_ok_bind]
  rw [if_neg hno, except_ok_bind]
  rw [if_neg hano, except_ok_bind, if_neg hbno]

/-- The 5-node tree of the spec's first concrete scenario: root (feature 0,
threshold 5) with a left leaf child and a right internal child (feature 1,
threshold 10) whose two children are leaves. -/
def T5 : Tree :=
  { children_left := [1, -1, 3, -1, -1]
  , children_right := [2, -1, 4, -1, -1]
  , feature := [0, -2, 1, -2, -2]
  , threshold := [5, -2, 10, -2, -2] }

/-- A 2-column, 2-row dataset. -/
def X5 : Dataset := { cols := [("a", [6, 2]), ("b", [9, 11])] }

/-- A right-chain tree of depth 2: root, its right child, and that child's
right child (a leaf at rule-path length 3); all left children absent. -/
def TZ : Tree :=
  { children_left := [-1, -1, -1]
  , children_right := [1, 2, -1]
  , feature := [0, 1, -2]
  , threshold := [5, 10, -2] }

/-- A 3-column dataset with zero rows. -/
def XZ : Dataset := { cols := [("a", []), ("b", []), ("c", [])] }

/-- A right-chain tree of depth 2 whose middle node records feature -1,
outside the 0-based column range of any dataset. -/
def TW : Tree :=
  { children_left := [-1, -1, -1]
  , children_right := [1, 2, -1]
  , feature := [0, -1, -2]
  , threshold := [5, 10, -2] }

/-- A 2-column, 1-row dataset. -/
def XW : Dataset := { cols := [("a", [1]), ("b", [100])] }

/-- A depth-1 tree: root with two leaf children. -/
def T1 : Tree :=
  { children_left := [1, -1, -1]
  , children_right := [2, -1, -1]
  , feature := [0, -2, -2]
  , threshold := [5, -2, -2] }

/-- A tree whose root is itself a leaf. -/
def TL : Tree :=
  { children_left := [-1]
  , children_right := [-1]
  , feature := [-2]
  , threshold := [-2] }

/-- C1 counterexample: in the spec's own 5-node tree the node-index path
[0, 2, 3] ends at node 3, a leaf (both child sentinels present), yet the
returned RuleSet contains the entry materialized at that leaf — rules are
NOT inserted only at non-leaf nodes. -/
theorem c1_counterexample :
    T5.children_left.get? 3 = some (-1) ∧ T5.children_right.get? 3 = some (-1) ∧
    rootChainB T5 [0, 2, 3] ["right", "left"] = true ∧
    materializeRule T5 X5 [0, 2, 3] ["right", "left"] =
      .ok ("a > 5 & b <= 10", .series [true, false]) ∧
    create_tree_rule_filters X5 T5 =
      .ok [("a > 5 & b <= 10", .series [true, false]),
           ("a > 5 & b > 10", .series [false, false])] :=
  ⟨rfl, rfl, rfl, rfl, rfl⟩

/-- C1 (amended): an entry is inserted into the returned RuleSet exactly
when a visited node's root-to-node index path exceeds 2 entries — whether
or not that node is a leaf; every returned entry arises from such a path. -/
theorem c1_rules_only_past_two_nodes (tree : Tree) (X : Dataset)
    (rules : List (String × PySeries)) (kv : String × PySeries)
    (h : create_tree_rule_filters X tree = .ok rules) (hkv : kv ∈ rules) :
    ∃ path dirs, rootChainB tree path dirs = true ∧ path.length > 2 ∧
      materializeRule tree X path dirs = .ok kv := by
  have hroot : rootChainB tree ([] ++ [0]) [] = true := rfl
  have hprov := traverse_provenance tree X (tree.children_left.length + 1) 0 [] [] []
    rules h hroot kv hkv
  rcases hprov with hin | hex
  · simp at hin
  · exact hex

/-- C1 witness: the rule materialized at leaf node 3 of the 5-node tree is
an entry of the returned RuleSet and indeed comes from a path of more than
two nodes. -/
theorem c1_witness :
    ∃ path dirs, rootChainB T5 path dirs = true ∧ path.length > 2 ∧
      materializeRule T5 X5 path dirs =
        .ok ("a > 5 & b <= 10", .series [true, false]) :=
  c1_rules_only_past_two_nodes T5 X5
    [("a > 5 & b <= 10", .series [true, false]),
     ("a > 5 & b > 10", .series [false, false])]
    ("a > 5 & b <= 10", .series [true, false]) rfl (by decide)

/-- C2 counterexample: the spec's concrete 5-node tree (depth 2, every
root-to-node path has at most 2 splits) yields a RuleSet with TWO entries,
not the empty mapping the claim asserts. -/
theorem c2_counterexample :
    create_tree_rule_filters X5 T5 =
      .ok [("a > 5 & b <= 10", .series [true, false]),
           ("a > 5 & b > 10", .series [false, false])] ∧
    create_tree_rule_filters X5 T5 ≠ .ok [] :=
  ⟨rfl, by decide⟩

/-- C2 (amended): only for trees of depth at most 1 — the root's existing
children are all leaves — is the returned RuleSet empty; a depth-2 tree
such as the 5-node scenario already produces entries (at its depth-2
leaves). -/
theorem c2_depth_le_one_empty (tree : Tree) (X : Dataset) (l r : Int)
    (hl : tree.children_left.get? 0 = some l)
    (hr : tree.children_right.get? 0 = some r)
    (hlleaf : 0 ≤ l → ∃ a b, tree.children_left.get? l.toNat = some a ∧
       tree.children_right.get? l.toNat = some b ∧ a < 0 ∧ b < 0)
    (hrleaf : 0 ≤ r → ∃ a b, tree.children_left.get? r.toNat = some a ∧
       tree.children_right.get? r.toNat = some b ∧ a < 0 ∧ b < 0) :
    create_tree_rule_filters X tree = .ok [] := by
  have hpos : 0 < tree.children_left.length := by
    cases hcl : tree.children_left with
    | nil => rw [hcl] at hl; simp at hl
    | cons x xs => simp [hcl]
  obtain ⟨M, hM⟩ : ∃ M, tree.children_left.length = M + 1 :=
    ⟨tree.children_left.length - 1, by omega⟩
  unfold create_tree_rule_filters
  rw [hM]
  have hno : ¬ (([] : List Nat) ++ [0]).length > 2 := by decide
  rw [traverse_succ, npGet_of_get? hl, except_ok_bind, npGet_of_get? hr, except_ok_bind]
  rw [if_neg hno, except_ok_bind]
  by_cases hlc : l ≥ 0
  · rw [if_pos hlc]
    obtain ⟨a, b, ha, hb, ha0, hb0⟩ := hlleaf hlc
    rw [traverse_leaf_depth1 tree X M l.toNat ([] ++ [0]) ([] ++ ["left"]) [] a b (by decide)
      ha hb ha0 hb0, except_ok_bind]
    by_cases hrc : r ≥ 0
    · rw [if_pos hrc]
      obtain ⟨a2, b2, ha2, hb2, ha02, hb02⟩ := hrleaf hrc
      exact traverse_leaf_depth1 tree X M r.toNat ([] ++ [0]) ([] ++ ["right"]) [] a2 b2 (by decide)
        ha2 hb2 ha02 hb02
    · rw [if_neg hrc]
  · rw [if_neg hlc, except_ok_bind]
    by_cases hrc : r ≥ 0
    · rw [if_pos hrc]
      obtain ⟨a2, b2, ha2, hb2, ha02, hb02⟩ := hrleaf hrc
      exact traverse_leaf_depth1 tree X M r.toNat ([] ++ [0]) ([] ++ ["right"]) [] a2 b2 (by decide)
        ha2 hb2 ha02 hb02
    · rw [if_neg hrc]

/-- C2 witness: a depth-1 tree (root with two leaf children) yields the
empty RuleSet. -/
theorem c2_witness : create_tree_rule_filters X5 T1 = .ok [] :=
  c2_depth_le_one_empty T1 X5 1 2 rfl rfl
    (fun _ => ⟨-1, -1, rfl, rfl, by decide, by decide⟩)
    (fun _ => ⟨-1, -1, rfl, rfl, by decide, by decide⟩)

/-- C6: sibling branches cannot corrupt each other's accumulated path —
every rule of the output was materialized at a node-index path that is a
genuine root-to-node ancestor chain, reconstructed independently from
`children_left`/`children_right`, with its direction list exactly one
shorter than the node list. -/
theorem c6_sibling_isolation (tree : Tree) (X : Dataset)
    (rules : List (String × PySeries)) (kv : String × PySeries)
    (h : create_tree_rule_filters X tree = .ok rules) (hkv : kv ∈ rules) :
    ∃ path dirs, rootChainB tree path dirs = true ∧
      path.length = dirs.length + 1 ∧
      materializeRule tree X path dirs = .ok kv := by
  have hroot : rootChainB tree ([] ++ [0]) [] = true := rfl
  have hprov := traverse_provenance tree X (tree.children_left.length + 1) 0 [] [] []
    rules h hroot kv hkv
  rcases hprov with hin | ⟨path, dirs, hchain, _, hmat⟩
  · simp at hin
  · have hcb := ((Bool.and_eq_true _ _).mp hchain).2
    exact ⟨path, dirs, hchain, chainB_length tree dirs path hcb, hmat⟩

/-- C6 witness: the second entry of the 5-node run comes from the ancestor
chain of node 4. -/
theorem c6_witness :
    ∃ path dirs, rootChainB T5 path dirs = true ∧
      path.length = dirs.length + 1 ∧
      materializeRule T5 X5 path dirs =
        .ok ("a > 5 & b > 10", .series [false, false]) :=
  c6_sibling_isolation T5 X5
    [("a > 5 & b <= 10", .series [true, false]),
     ("a > 5 & b > 10", .series [false, false])]
    ("a > 5 & b > 10", .series [false, false]) rfl (by decide)

/-- C7 counterexample: on a zero-row (but 3-column) dataset and a depth-2
chain tree, the call returns WITHOUT error a RuleSet holding one entry
(with an empty boolean vector) — not the empty RuleSet the claim asserts
for every degenerate dataset. -/
theorem c7_counterexample :
    XZ.cols.all (fun c => c.2.length == 0) = true ∧
    create_tree_rule_filters XZ TZ = .ok [("a > 5 & b > 10", .series [])] ∧
    create_tree_rule_filters XZ TZ ≠ .ok [] :=
  ⟨rfl, rfl, by decide⟩

/-- C7 (amended): when the tree's root is itself a leaf the call returns
the empty RuleSet without error, for every dataset; for an empty dataset
this need not hold (a zero-row dataset can yield a non-empty RuleSet, a
zero-column one can raise). -/
theorem c7_root_leaf_empty (tree : Tree) (X : Dataset) (l r : Int)
    (hl : tree.children_left.get? 0 = some l) (hl0 : l < 0)
    (hr : tree.children_right.get? 0 = some r) (hr0 : r < 0) :
    create_tree_rule_filters X tree = .ok [] := by
  unfold create_tree_rule_filters
  have hno : ¬ (([] : List Nat) ++ [0]).length > 2 := by decide
  have hlno : ¬ l ≥ 0 := by omega
  have hrno : ¬ r ≥ 0 := by omega
  rw [traverse_succ, npGet_of_get? hl, except_ok_bind, npGet_of_get? hr, except_ok_bind]
  rw [if_neg hno, except_ok_bind]
  rw [if_neg hlno, except_ok_bind, if_neg hrno]

/-- C7 witness: a single-leaf tree returns the empty RuleSet on a concrete
dataset. -/
theorem c7_witness : create_tree_rule_filters X5 TL = .ok [] :=
  c7_root_leaf_empty TL X5 (-1) (-1) rfl (by decide) rfl (by decide)

/-- C9: along every path materialized by the top-level traversal, each
recorded direction is literally 'left' or 'right' (they are only ever
appended as these two literals), so `_create_single_filter`'s unguarded
fall-through (returning `None`) is unreachable from the traversal: the
helper is total on all reachable directions. -/
theorem c9_directions_reachable (tree : Tree) (X : Dataset)
    (rules : List (String × PySeries)) (kv : String × PySeries)
    (h : create_tree_rule_filters X tree = .ok rules) (hkv : kv ∈ rules) :
    ∃ path dirs, materializeRule tree X path dirs = .ok kv ∧
      (∀ d ∈ dirs, d = "left" ∨ d = "right") ∧
      (∀ d ∈ dirs, ∀ srs thr, (_create_single_filter srs thr d).isSome = true) := by
  have hroot : rootChainB tree ([] ++ [0]) [] = true := rfl
  have hprov := traverse_provenance tree X (tree.children_left.length + 1) 0 [] [] []
    rules h hroot kv hkv
  rcases hprov with hin | ⟨path, dirs, hchain, _, hmat⟩
  · simp at hin
  · have hcb := ((Bool.and_eq_true _ _).mp hchain).2
    have hd := chainB_dirs tree dirs path hcb
    refine ⟨path, dirs, hmat, hd, ?_⟩
    intro d hdm srs thr
    rcases hd d hdm with rfl | rfl
    · simp [_create_single_filter]
    · simp [_create_single_filter]

/-- C9 witness: instantiated on the 5-node run's second entry. -/
theorem c9_witness :
    ∃ path dirs, materializeRule T5 X5 path dirs =
        .ok ("a > 5 & b > 10", .series [false, false]) ∧
      (∀ d ∈ dirs, d = "left" ∨ d = "right") ∧
      (∀ d ∈ dirs, ∀ srs thr, (_create_single_filter srs thr d).isSome = true) :=
  c9_directions_reachable T5 X5
    [("a > 5 & b <= 10", .series [true, false]),
     ("a > 5 & b > 10", .series [false, false])]
    ("a > 5 & b > 10", .series [false, false]) rfl (by decide)

/-- Join a list of strings with a separator, in path order. -/
def joinSep (sep : String) : List String → String
  | [] => ""
  | [x] => x
  | x :: y :: t => x ++ sep ++ joinSep sep (y :: t)

/-- The left fold of `reduce(_combine_filter_names, names)` is a
separator join. -/
theorem foldl_sep_eq_joinSep (sep : String) :
    ∀ (t : List String) (h : String),
      t.foldl (fun a b => a ++ sep ++ b) h = joinSep sep (h :: t) := by
  intro t
  induction t with
  | nil => intro h; rfl
  | cons b t' ih =>
    intro h
    rw [List.foldl_cons, ih (h ++ sep ++ b)]
    show joinSep sep ((h ++ sep ++ b) :: t') = joinSep sep (h :: b :: t')
    induction t' with
    | nil => show h ++ sep ++ b = h ++ sep ++ joinSep sep [b]; rfl
    | cons c t2 _ =>
      show (h ++ sep ++ b) ++ sep ++ joinSep sep (c :: t2) =
        h ++ sep ++ (b ++ sep ++ joinSep sep (c :: t2))
      simp [String.append_assoc]

/-- A successful `_create_rule_filter` run is a left `&`-fold of exactly
one comparison vector per direction. -/
theorem ruleFilterGo_shape :
    ∀ (ds : List String) (cs : List (String × List ℚ)) (ts : List ℚ)
      (acc srs : PySeries), ruleFilterGo cs ts ds acc = .ok srs →
      ∃ vecs : List (List Bool), vecs.length = ds.length ∧
        srs = vecs.foldl pandasAnd acc := by
  intro ds
  induction ds with
  | nil =>
    intro cs ts acc srs h
    have heq : ruleFilterGo cs ts [] acc = .ok acc := by
      cases cs <;> cases ts <;> rfl
    rw [heq] at h
    injection h with h
    exact ⟨[], rfl, by rw [List.foldl_nil, ← h]⟩
  | cons d ds' ih =>
    intro cs ts acc srs h
    cases cs with
    | nil =>
      have heq : ruleFilterGo [] ts (d :: ds') acc = .error "IndexError" := by
        cases ts <;> rfl
      rw [heq] at h
      exact Except.noConfusion h
    | cons c cs' =>
      cases ts with
      | nil =>
        have heq : ruleFilterGo (c :: cs') [] (d :: ds') acc = .error "IndexError" := rfl
        rw [heq] at h
        exact Except.noConfusion h
      | cons t ts' =>
        cases hf : _create_single_filter c.2 t d with
        | none =>
          simp only [ruleFilterGo, hf] at h
          exact Except.noConfusion h
        | some v =>
          simp only [ruleFilterGo, hf] at h
          obtain ⟨vecs, hlen, hsrs⟩ := ih cs' ts' (pandasAnd acc v) srs h
          exact ⟨v :: vecs, by simp [hlen], by rw [List.foldl_cons]; exact hsrs⟩

/-- A successful `_create_rule_filter_name` run is the `" & "` join of
exactly one formatted comparison per direction. -/
theorem name_shape {Xr : List (String × List ℚ)} {thr : List ℚ} {dirs : List String}
    {s : String} (h : _create_rule_filter_name Xr thr dirs = .ok s) :
    ∃ parts : List String, parts ≠ [] ∧ parts.length = dirs.length ∧
      s = joinSep " & " parts := by
  simp only [_create_rule_filter_name, except_bind_ok] at h
  obtain ⟨names, hnames, h⟩ := h
  have hlen : names.length = dirs.length := by
    have := mapM_ok_length _ _ _ hnames
    simpa using this
  cases names with
  | nil => simp at h
  | cons hd tl =>
    simp only [Except.ok.injEq] at h
    refine ⟨hd :: tl, by simp, hlen, ?_⟩
    rw [← h, foldl_sep_eq_joinSep]

/-- Destructuring a successful materialization into its filter and name
computations. -/
theorem materializeRule_ok_inv {tree : Tree} {X : Dataset} {path : List Nat}
    {dirs : List String} {kv : String × PySeries}
    (h : materializeRule tree X path dirs = .ok kv) :
    ∃ Xr thr, _create_rule_filter Xr thr dirs = .ok kv.2 ∧
      _create_rule_filter_name Xr thr dirs = .ok kv.1 := by
  simp only [materializeRule, except_bind_ok] at h
  obtain ⟨features, hfe, Xr, hXr, thr, hthr, srs, hsrs, nm, hnm, hfin⟩ := h
  injection hfin with hfin
  exact ⟨Xr, thr, by rw [← hfin]; exact hsrs, by rw [← hfin]; exact hnm⟩

/-- C5: every RuleSet entry consists of a name that joins exactly
`len(directions)` formatted conjuncts with `" & "`, and of a boolean
Series obtained by `&`-folding exactly `len(directions)` comparison
vectors; the direction count is the node-index path length minus one. -/
theorem c5_conjunct_count (tree : Tree) (X : Dataset)
    (rules : List (String × PySeries)) (kv : String × PySeries)
    (h : create_tree_rule_filters X tree = .ok rules) (hkv : kv ∈ rules) :
    ∃ (path : List Nat) (dirs : List String) (parts : List String)
      (vecs : List (List Bool)),
      rootChainB tree path dirs = true ∧ path.length = dirs.length + 1 ∧
      parts.length = dirs.length ∧ kv.1 = joinSep " & " parts ∧
      vecs.length = dirs.length ∧ kv.2 = vecs.foldl pandasAnd .scalarTrue := by
  have hroot : rootChainB tree ([] ++ [0]) [] = true := rfl
  have hprov := traverse_provenance tree X (tree.children_left.length + 1) 0 [] [] []
    rules h hroot kv hkv
  rcases hprov with hin | ⟨path, dirs, hchain, _, hmat⟩
  · simp at hin
  · obtain ⟨Xr, thr, hfil, hnm⟩ := materializeRule_ok_inv hmat
    obtain ⟨vecs, hvlen, hvs⟩ := ruleFilterGo_shape dirs Xr thr .scalarTrue kv.2 hfil
    obtain ⟨parts, hpne, hplen, hps⟩ := name_shape hnm
    have hcb := ((Bool.and_eq_true _ _).mp hchain).2
    exact ⟨path, dirs, parts, vecs, hchain, chainB_length tree dirs path hcb,
      hplen, hps, hvlen, hvs⟩

/-- C5 witness: instantiated on the 5-node run's first entry. -/
theorem c5_witness :
    ∃ (path : List Nat) (dirs : List String) (parts : List String)
      (vecs : List (List Bool)),
      rootChainB T5 path dirs = true ∧ path.length = dirs.length + 1 ∧
      parts.length = dirs.length ∧ "a > 5 & b <= 10" = joinSep " & " parts ∧
      vecs.length = dirs.length ∧
      PySeries.series [true, false] = vecs.foldl pandasAnd .scalarTrue :=
  c5_conjunct_count T5 X5
    [("a > 5 & b <= 10", .series [true, false]),
     ("a > 5 & b > 10", .series [false, false])]
    ("a > 5 & b <= 10", .series [true, false]) rfl (by decide)

/-- Specification-side restatement: the comparison a single conjunct
applies to one value (`<=` threshold for left, `>` threshold for right). -/
def singleCompare (x t : ℚ) (d : String) : Bool :=
  if d = "left" then decide (x ≤ t) else decide (t < x)

/-- Specification-side restatement: whether row `r` satisfies the
conjunction of all per-position threshold comparisons of a path. -/
def specRowConj (Xr : List (String × List ℚ)) (thr : List ℚ) (dirs : List String)
    (r : Nat) : Bool :=
  (List.range dirs.length).all fun i =>
    singleCompare ((Xr.getD i ("", [])).2.getD r 0) (thr.getD i 0) (dirs.getD i "")

/-- Peeling the first conjunct off the specification-side row conjunction. -/
theorem specRowConj_cons (c : String × List ℚ) (cs : List (String × List ℚ))
    (t : ℚ) (ts : List ℚ) (d : String) (ds : List String) (r : Nat) :
    specRowConj (c :: cs) (t :: ts) (d :: ds) r =
      (singleCompare (c.2.getD r 0) t d && specRowConj cs ts ds r) := by
  unfold specRowConj
  rw [List.length_cons, List.range_succ_eq_map, List.all_cons, List.all_map]
  simp only [List.getD_cons_zero]
  congr 1

/-- Elementwise value of a zipped conjunction of equal-length vectors. -/
theorem zipWith_and_getD (a : List Bool) :
    ∀ (b : List Bool) (r : Nat), r < a.length → r < b.length →
      (List.zipWith and a b).getD r false = (a.getD r false && b.getD r false) := by
  induction a with
  | nil => intro b r ha _; simp at ha
  | cons x a' ih =>
    intro b r ha hb
    cases b with
    | nil => simp at hb
    | cons y b' =>
      cases r with
      | zero => rfl
      | succ r' =>
        rw [List.zipWith_cons_cons, List.getD_cons_succ, List.getD_cons_succ,
          List.getD_cons_succ]
        exact ih b' r' (by simpa using ha) (by simpa using hb)

/-- Elementwise value of a mapped list below its length. -/
theorem map_getD_of_lt {α β : Type} (f : α → β) (l : List α) :
    ∀ (r : Nat) (a : α) (b : β), r < l.length → (l.map f).getD r b = f (l.getD r a) := by
  induction l with
  | nil => intro r a b h; simp at h
  | cons x l' ih =>
    intro r a b h
    cases r with
    | zero => rfl
    | succ r' =>
      rw [List.map_cons, List.getD_cons_succ, List.getD_cons_succ]
      exact ih r' a b (by simpa using h)

/-- On a 'left' or 'right' direction, `_create_single_filter` is the map of
the specification-side comparison over the column. -/
theorem single_filter_eq_map (c2 : List ℚ) (t : ℚ) (d : String)
    (hdlr : d = "left" ∨ d = "right") :
    _create_single_filter c2 t d = some (c2.map fun x => singleCompare x t d) := by
  rcases hdlr with rfl | rfl
  · simp [_create_single_filter, singleCompare]
  · simp [_create_single_filter, singleCompare]

/-- The rule-filter loop started on a Series accumulator computes, row by
row, the accumulator conjoined with the specification-side conjunction. -/
theorem ruleFilterGo_series (n : Nat) :
    ∀ (ds : List String) (cs : List (String × List ℚ)) (ts : List ℚ) (a : List Bool),
      ds.length ≤ cs.length → ds.length ≤ ts.length →
      (∀ d ∈ ds, d = "left" ∨ d = "right") →
      (∀ c ∈ cs, (c.2 : List ℚ).length = n) → a.length = n →
      ∃ v : List Bool, ruleFilterGo cs ts ds (.series a) = .ok (.series v) ∧
        v.length = n ∧
        ∀ r, r < n → v.getD r false = (a.getD r false && specRowConj cs ts ds r) := by
  intro ds
  induction ds with
  | nil =>
    intro cs ts a _ _ _ _ ha
    refine ⟨a, ?_, ha, ?_⟩
    · cases cs <;> cases ts <;> rfl
    · intro r hr
      unfold specRowConj
      simp
  | cons d ds' ih =>
    intro cs ts a hlc hlt hd hcols ha
    cases cs with
    | nil => simp at hlc
    | cons c cs' =>
      cases ts with
      | nil => simp at hlt
      | cons t ts' =>
        have hsf := single_filter_eq_map c.2 t d (hd d (List.mem_cons_self d ds'))
        have hclen := hcols c (List.mem_cons_self c cs')
        have hvlen : (c.2.map fun x => singleCompare x t d).length = n := by
          simp [hclen]
        have hzlen :
            (List.zipWith and a (c.2.map fun x => singleCompare x t d)).length = n := by
          simp [List.length_zipWith, ha, hvlen]
        obtain ⟨v, hgo, hvl, hval⟩ := ih cs' ts'
          (List.zipWith and a (c.2.map fun x => singleCompare x t d))
          (by simpa using hlc) (by simpa using hlt)
          (fun d2 h2 => hd d2 (List.mem_cons_of_mem d h2))
          (fun c2 h2 => hcols c2 (List.mem_cons_of_mem c h2)) hzlen
        refine ⟨v, ?_, hvl, ?_⟩
        · simp only [ruleFilterGo, hsf]
          exact hgo
        · intro r hr
          rw [hval r hr, specRowConj_cons]
          rw [zipWith_and_getD a _ r (by omega) (by rw [hvlen]; exact hr)]
          rw [map_getD_of_lt (fun x => singleCompare x t d) c.2 r 0 false
            (by rw [hclen]; exact hr)]
          rw [Bool.and_assoc]

/-- C3: on a materialized path shape (nonempty left/right directions, and
per-direction columns and thresholds available, all columns of row count
`n`), `_create_rule_filter` returns a boolean Series of length `n` whose
value at each row `r` is exactly the conjunction over positions `i` of
(column_i[r] <= threshold_i when direction_i is left, column_i[r] >
threshold_i when it is right) — the row-wise AND of the per-conjunct
comparison vectors. -/
theorem c3_filter_rowwise_conjunction (Xr : List (String × List ℚ)) (thr : List ℚ)
    (dirs : List String) (n : Nat)
    (hX : dirs.length ≤ Xr.length) (hthr : dirs.length ≤ thr.length)
    (hd : ∀ d ∈ dirs, d = "left" ∨ d = "right")
    (hcols : ∀ c ∈ Xr, (c.2 : List ℚ).length = n)
    (hne : dirs ≠ []) :
    ∃ v : List Bool, _create_rule_filter Xr thr dirs = .ok (.series v) ∧
      v.length = n ∧ ∀ r, r < n → v.getD r false = specRowConj Xr thr dirs r := by
  cases dirs with
  | nil => exact absurd rfl hne
  | cons d ds =>
    cases Xr with
    | nil => simp at hX
    | cons c cs =>
      cases thr with
      | nil => simp at hthr
      | cons t ts =>
        have hsf := single_filter_eq_map c.2 t d (hd d (List.mem_cons_self d ds))
        have hclen := hcols c (List.mem_cons_self c cs)
        have hvlen : (c.2.map fun x => singleCompare x t d).length = n := by
          simp [hclen]
        obtain ⟨v, hgo, hvl, hval⟩ := ruleFilterGo_series n ds cs ts
          (c.2.map fun x => singleCompare x t d)
          (by simpa using hX) (by simpa using hthr)
          (fun d2 h2 => hd d2 (List.mem_cons_of_mem d h2))
          (fun c2 h2 => hcols c2 (List.mem_cons_of_mem c h2)) hvlen
        refine ⟨v, ?_, hvl, ?_⟩
        · show ruleFilterGo (c :: cs) (t :: ts) (d :: ds) .scalarTrue = .ok (.series v)
          simp only [ruleFilterGo, hsf]
          exact hgo
        · intro r hr
          rw [hval r hr, specRowConj_cons]
          rw [map_getD_of_lt (fun x => singleCompare x t d) c.2 r 0 false
            (by rw [hclen]; exact hr)]

/-- C3 witness: a concrete two-conjunct filter computed row by row. -/
theorem c3_witness :
    ∃ v : List Bool,
      _create_rule_filter [("a", [1, 7]), ("b", [3, 4])] [5, 3] ["left", "right"] =
        .ok (.series v) ∧ v.length = 2 ∧
      ∀ r, r < 2 → v.getD r false =
        specRowConj [("a", [1, 7]), ("b", [3, 4])] [5, 3] ["left", "right"] r :=
  c3_filter_rowwise_conjunction [("a", [1, 7]), ("b", [3, 4])] [5, 3]
    ["left", "right"] 2 (by decide) (by decide) (by decide) (by decide) (by decide)

/-- Specification-side restatement: the formatted name of conjunct `i`:
column name, a space, `<=` for left and `>` for right, a space, then the
threshold's textual rendering. -/
def specConjName (Xr : List (String × List ℚ)) (thr : List ℚ) (dirs : List String)
    (i : Nat) : String :=
  if dirs.getD i "" = "left" then
    (Xr.getD i ("", [])).1 ++ " <= " ++ toString (thr.getD i 0)
  else
    (Xr.getD i ("", [])).1 ++ " > " ++ toString (thr.getD i 0)

/-- C4: the rule name is built by formatting, for each position in order,
"{column} {op} {threshold}" with `<=` for left and `>` for right, joined
with the literal separator " & " in root-to-node order (not reversed). -/
theorem c4_name_format (Xr : List (String × List ℚ)) (thr : List ℚ)
    (dirs : List String)
    (hX : dirs.length ≤ Xr.length) (hthr : dirs.length ≤ thr.length)
    (hd : ∀ d ∈ dirs, d = "left" ∨ d = "right") (hne : dirs ≠ []) :
    _create_rule_filter_name Xr thr dirs =
      .ok (joinSep " & " ((List.range dirs.length).map (specConjName Xr thr dirs))) := by
  have hsingle : ∀ i ∈ List.range dirs.length,
      _create_single_filter_name Xr thr dirs i = .ok (specConjName Xr thr dirs i) := by
    intro i hi
    have hilt : i < dirs.length := List.mem_range.mp hi
    obtain ⟨d, hdi⟩ : ∃ d, dirs.get? i = some d :=
      ⟨dirs.get ⟨i, hilt⟩, List.get?_eq_get hilt⟩
    obtain ⟨x, hxi⟩ : ∃ x, Xr.get? i = some x :=
      ⟨Xr.get ⟨i, by omega⟩, List.get?_eq_get (by omega)⟩
    obtain ⟨q, hqi⟩ : ∃ q, thr.get? i = some q :=
      ⟨thr.get ⟨i, by omega⟩, List.get?_eq_get (by omega)⟩
    have hgd : dirs.getD i "" = d := by rw [List.getD_eq_get?, hdi]; rfl
    have hgx : Xr.getD i ("", []) = x := by rw [List.getD_eq_get?, hxi]; rfl
    have hgq : thr.getD i 0 = q := by rw [List.getD_eq_get?, hqi]; rfl
    unfold _create_single_filter_name specConjName
    rw [npGet_of_get? hxi, except_ok_bind, npGet_of_get? hqi, except_ok_bind,
      npGet_of_get? hdi, except_ok_bind, hgd, hgx, hgq]
    rcases hd d (List.get?_mem hdi) with rfl | rfl
    · rw [if_pos rfl, if_pos rfl]
    · have hno : ¬("right" : String) = "left" := by decide
      rw [if_neg hno, if_pos rfl, if_neg hno]
  obtain ⟨m, hm⟩ : ∃ m, dirs.length = m + 1 := by
    cases dirs with
    | nil => exact absurd rfl hne
    | cons d ds => exact ⟨ds.length, rfl⟩
  unfold _create_rule_filter_name
  rw [mapM_ok_of_forall _ _ _ hsingle, except_ok_bind]
  rw [hm, List.range_succ_eq_map, List.map_cons]
  show Except.ok (((List.map Nat.succ (List.range m)).map
      (specConjName Xr thr dirs)).foldl (fun a b => a ++ " & " ++ b)
      (specConjName Xr thr dirs 0)) = _
  rw [foldl_sep_eq_joinSep]

/-- C4 witness: a concrete two-conjunct name. -/
theorem c4_witness :
    _create_rule_filter_name [("a", [1, 7]), ("b", [3, 4])] [5, 3] ["left", "right"] =
      .ok (joinSep " & " ((List.range 2).map
        (specConjName [("a", [1, 7]), ("b", [3, 4])] [5, 3] ["left", "right"]))) :=
  c4_name_format [("a", [1, 7]), ("b", [3, 4])] [5, 3] ["left", "right"]
    (by decide) (by decide) (by decide) (by decide)

/-- A direction outside the two literals makes the filter loop raise. -/
theorem ruleFilterGo_bad_dir :
    ∀ (ds : List String) (cs : List (String × List ℚ)) (ts : List ℚ) (acc : PySeries),
      (∃ d ∈ ds, ¬(d = "left" ∨ d = "right")) →
      ∃ e, ruleFilterGo cs ts ds acc = .error e := by
  intro ds
  induction ds with
  | nil =>
    intro cs ts acc h
    obtain ⟨d, hd, _⟩ := h
    simp at hd
  | cons d0 ds' ih =>
    intro cs ts acc h
    cases cs with
    | nil => exact ⟨"IndexError", by cases ts <;> rfl⟩
    | cons c cs' =>
      cases ts with
      | nil => exact ⟨"IndexError", rfl⟩
      | cons t ts' =>
        cases hf : _create_single_filter c.2 t d0 with
        | none => exact ⟨"TypeError", by simp only [ruleFilterGo, hf]⟩
        | some v =>
          have hd0 : d0 = "left" ∨ d0 = "right" := by
            by_contra hcon
            push_neg at hcon
            unfold _create_single_filter at hf
            rw [if_neg hcon.1, if_neg hcon.2] at hf
            exact Option.noConfusion hf
          obtain ⟨d, hdm, hdbad⟩ := h
          have hdm2 : d ∈ ds' := by
            rcases List.mem_cons.mp hdm with rfl | hmem
            · exact absurd hd0 hdbad
            · exact hmem
          obtain ⟨e, he⟩ := ih cs' ts' (pandasAnd acc v) ⟨d, hdm2, hdbad⟩
          exact ⟨e, by simp only [ruleFilterGo, hf]; exact he⟩

/-- A direction outside the two literals makes the name computation raise. -/
theorem ruleFilterName_bad_dir (Xr : List (String × List ℚ)) (thr : List ℚ)
    (dirs : List String) (h : ∃ d ∈ dirs, ¬(d = "left" ∨ d = "right")) :
    ∃ e, _create_rule_filter_name Xr thr dirs = .error e := by
  obtain ⟨d, hdm, hdbad⟩ := h
  obtain ⟨j, hj⟩ := List.get?_of_mem hdm
  have hjlt : j < dirs.length := by
    by_contra hge
    push_neg at hge
    rw [List.get?_eq_none.mpr hge] at hj
    exact Option.noConfusion hj
  cases hm : _create_rule_filter_name Xr thr dirs with
  | error e => exact ⟨e, rfl⟩
  | ok s =>
    exfalso
    simp only [_create_rule_filter_name, except_bind_ok] at hm
    obtain ⟨names, hnames, _⟩ := hm
    obtain ⟨y, hy⟩ := mapM_ok_forall _ _ _ hnames j (List.mem_range.mpr hjlt)
    simp only [_create_single_filter_name, except_bind_ok] at hy
    obtain ⟨col, _, q, _, dq, hdq, hy⟩ := hy
    have hdqd : dq = d := by
      have h1 := npGet_ok hdq
      rw [hj] at h1
      injection h1 with h1
      exact h1.symm
    push_neg at hdbad
    rw [hdqd, if_neg hdbad.1, if_neg hdbad.2] at hy
    exact Except.noConfusion hy

/-- A column index outside the pandas-accepted range `[-n, n)` makes
column selection raise. -/
theorem ilocCols_bad_index (X : Dataset) (idxs : List Int)
    (h : ∃ i ∈ idxs, ¬(-(X.cols.length : Int) ≤ i ∧ i < (X.cols.length : Int))) :
    ∃ e, ilocCols X idxs = .error e := by
  cases hm : ilocCols X idxs with
  | error e => exact ⟨e, rfl⟩
  | ok cols =>
    exfalso
    obtain ⟨i, him, hbad⟩ := h
    obtain ⟨y, hy⟩ := mapM_ok_forall _ _ _ hm i him
    have h1 : ¬(0 ≤ i ∧ i < (X.cols.length : Int)) := by omega
    have h2 : ¬(-(X.cols.length : Int) ≤ i ∧ i < 0) := by omega
    simp only [ilocCol] at hy
    rw [if_neg h1, if_neg h2] at hy
    exact Except.noConfusion hy

/-- C8 (amended): a direction outside {left, right} on a materialized path
makes both the filter and the name computation signal an error, and a
feature index outside the pandas positional range `[-n, n)` makes column
selection signal an error; however, a NEGATIVE feature index inside
`[-n, 0)` — out of range for the spec's 0-based column model — is accepted
silently with wrap-around (see counterexample). -/
theorem c8_fail_loudly :
    (∀ (Xr : List (String × List ℚ)) (thr : List ℚ) (dirs : List String),
      (∃ d ∈ dirs, ¬(d = "left" ∨ d = "right")) →
      ∃ e, _create_rule_filter Xr thr dirs = .error e) ∧
    (∀ (Xr : List (String × List ℚ)) (thr : List ℚ) (dirs : List String),
      (∃ d ∈ dirs, ¬(d = "left" ∨ d = "right")) →
      ∃ e, _create_rule_filter_name Xr thr dirs = .error e) ∧
    (∀ (X : Dataset) (idxs : List Int),
      (∃ i ∈ idxs, ¬(-(X.cols.length : Int) ≤ i ∧ i < (X.cols.length : Int))) →
      ∃ e, ilocCols X idxs = .error e) :=
  ⟨fun Xr thr dirs h => ruleFilterGo_bad_dir dirs Xr thr .scalarTrue h,
   fun Xr thr dirs h => ruleFilterName_bad_dir Xr thr dirs h,
   fun X idxs h => ilocCols_bad_index X idxs h⟩

/-- C8 witness: a concrete bad direction makes filter and name raise, and
a concrete out-of-range index (2 on a 2-column dataset) makes selection
raise. -/
theorem c8_witness :
    (∃ e, _create_rule_filter [("a", [1])] [5] ["up"] = .error e) ∧
    (∃ e, _create_rule_filter_name [("a", [1])] [5] ["up"] = .error e) ∧
    (∃ e, ilocCols XW [2] = .error e) :=
  ⟨c8_fail_loudly.1 [("a", [1])] [5] ["up"] ⟨"up", by decide, by decide⟩,
   c8_fail_loudly.2.1 [("a", [1])] [5] ["up"] ⟨"up", by decide, by decide⟩,
   c8_fail_loudly.2.2 XW [2] ⟨2, by decide, by decide⟩⟩

/-- C8 counterexample: node 1 of the materialized path [0, 1, 2] records
feature -1, out of the dataset's 0-based column range, yet the computation
signals NO error: it silently wraps around to the last column and inserts
the resulting rule into the RuleSet. -/
theorem c8_counterexample :
    TW.feature.get? 1 = some (-1) ∧ ¬(0 ≤ (-1 : Int)) ∧
    rootChainB TW [0, 1, 2] ["right", "right"] = true ∧
    create_tree_rule_filters XW TW = .ok [("a > 5 & b > 10", .series [false])] ∧
    create_tree_rule_filters XW TW ≠ .ok [] :=
  ⟨rfl, by decide, rfl, rfl, by decide⟩

/-- Bind after a failing `Except` step propagates the error. -/
theorem except_error_bind {ε α β : Type} (e : ε) (k : α → Except ε β) :
    ((Except.error e : Except ε α) >>= k) = .error e := rfl

/-- Pure in `Except` is the ok constructor. -/
theorem except_pure_eq_ok {ε α : Type} (a : α) :
    (pure a : Except ε α) = .ok a := rfl

/-- Pointwise equal functions give equal `mapM` computations. -/
theorem mapM_congr_except {α β : Type} (f g : α → Except String β) :
    ∀ (xs : List α), (∀ a ∈ xs, f a = g a) → xs.mapM f = xs.mapM g := by
  intro xs
  induction xs with
  | nil => intro _; rfl
  | cons a as ih =>
    intro h
    rw [List.mapM_cons, List.mapM_cons, h a (List.mem_cons_self a as),
      ih (fun b hb => h b (List.mem_cons_of_mem a hb))]

/-- Indexing below the first part's length ignores an appended tail. -/
theorem npGet_append {α : Type} (l l2 : List α) (i : Nat) (h : i < l.length) :
    npGet (l ++ l2) i = npGet l i := by
  unfold npGet
  rw [List.get?_append h]

/-- The filter loop never reads past `len(directions)` columns or
thresholds: appended tails are ignored. -/
theorem ruleFilterGo_append :
    ∀ (ds : List String) (cs : List (String × List ℚ)) (ts : List ℚ)
      (cs2 : List (String × List ℚ)) (ts2 : List ℚ) (acc : PySeries),
      ds.length ≤ cs.length → ds.length ≤ ts.length →
      ruleFilterGo (cs ++ cs2) (ts ++ ts2) ds acc = ruleFilterGo cs ts ds acc := by
  intro ds
  induction ds with
  | nil =>
    intro cs ts cs2 ts2 acc _ _
    have h1 : ruleFilterGo (cs ++ cs2) (ts ++ ts2) [] acc = .ok acc := by
      cases hcc : cs ++ cs2 <;> cases htt : ts ++ ts2 <;> rfl
    have h2 : ruleFilterGo cs ts [] acc = .ok acc := by
      cases cs <;> cases ts <;> rfl
    rw [h1, h2]
  | cons d ds2 ih =>
    intro cs ts cs2 ts2 acc hc ht
    cases cs with
    | nil => simp at hc
    | cons c cs0 =>
      cases ts with
      | nil => simp at ht
      | cons t ts0 =>
        show ruleFilterGo (c :: (cs0 ++ cs2)) (t :: (ts0 ++ ts2)) (d :: ds2) acc = _
        cases hf : _create_single_filter c.2 t d with
        | none => simp only [ruleFilterGo, hf]
        | some v =>
          simp only [ruleFilterGo, hf]
          exact ih cs0 ts0 cs2 ts2 (pandasAnd acc v) (by simpa using hc) (by simpa using ht)

/-- `_create_rule_filter` ignores columns and thresholds past
`len(directions)`. -/
theorem rule_filter_append (cs cs2 : List (String × List ℚ)) (ts ts2 : List ℚ)
    (ds : List String) (hc : ds.length ≤ cs.length) (ht : ds.length ≤ ts.length) :
    _create_rule_filter (cs ++ cs2) (ts ++ ts2) ds = _create_rule_filter cs ts ds :=
  ruleFilterGo_append ds cs ts cs2 ts2 .scalarTrue hc ht

/-- A single conjunct name only reads position `i < len(directions)`. -/
theorem single_name_append (cs cs2 : List (String × List ℚ)) (ts ts2 : List ℚ)
    (ds : List String) (i : Nat) (hi : i < ds.length)
    (hc : ds.length ≤ cs.length) (ht : ds.length ≤ ts.length) :
    _create_single_filter_name (cs ++ cs2) (ts ++ ts2) ds i =
      _create_single_filter_name cs ts ds i := by
  have hic : i < cs.length := by omega
  have hit : i < ts.length := by omega
  unfold _create_single_filter_name
  rw [npGet_append cs cs2 i hic, npGet_append ts ts2 i hit]

/-- `_create_rule_filter_name` ignores columns and thresholds past
`len(directions)`. -/
theorem name_append (cs cs2 : List (String × List ℚ)) (ts ts2 : List ℚ)
    (ds : List String) (hc : ds.length ≤ cs.length) (ht : ds.length ≤ ts.length) :
    _create_rule_filter_name (cs ++ cs2) (ts ++ ts2) ds =
      _create_rule_filter_name cs ts ds := by
  unfold _create_rule_filter_name
  rw [mapM_congr_except _ _ (List.range ds.length)
    (fun i hi => single_name_append cs cs2 ts ts2 ds i (List.mem_range.mp hi) hc ht)]

/-- Materializing a path `pre ++ [m]` whose last node has available split
data computes the rule from the first `len(pre)` positions only. -/
theorem materializeRule_concat (t : Tree) (X : Dataset) (pre : List Nat) (m : Nat)
    (dirs : List String) (f : Int) (q : ℚ) (c : String × List ℚ)
    (hf : t.feature.get? m = some f) (hq : t.threshold.get? m = some q)
    (hc : ilocCol X f = .ok c) (hdlen : dirs.length = pre.length) :
    materializeRule t X (pre ++ [m]) dirs =
      (pre.mapM (fun j => npGet t.feature j) >>= fun fs =>
       fs.mapM (ilocCol X) >>= fun cols =>
       pre.mapM (fun j => npGet t.threshold j) >>= fun qs =>
       _create_rule_filter cols qs dirs >>= fun srs =>
       _create_rule_filter_name cols qs dirs >>= fun nm =>
       .ok (nm, srs)) := by
  simp only [materializeRule, ilocCols, mapM_append_except]
  cases hfs : pre.mapM (fun j => npGet t.feature j) with
  | error e => simp only [hfs, except_error_bind]
  | ok fs =>
    have hfslen : fs.length = pre.length := mapM_ok_length _ _ _ hfs
    simp only [hfs, except_ok_bind, List.mapM_cons, List.mapM_nil, npGet_of_get? hf,
      except_pure_eq_ok, mapM_append_except]
    cases hcs : fs.mapM (ilocCol X) with
    | error e => simp only [hcs, except_error_bind]
    | ok cols =>
      have hcolslen : cols.length = fs.length := mapM_ok_length _ _ _ hcs
      simp only [hcs, except_ok_bind, List.mapM_cons, List.mapM_nil, hc,
        except_pure_eq_ok]
      cases hqs : pre.mapM (fun j => npGet t.threshold j) with
      | error e => simp only [hqs, except_error_bind]
      | ok qs =>
        have hqslen : qs.length = pre.length := mapM_ok_length _ _ _ hqs
        simp only [hqs, except_ok_bind, List.mapM_cons, List.mapM_nil,
          npGet_of_get? hq, except_pure_eq_ok]
        have hfil := rule_filter_append cols [c] qs [q] dirs (by omega) (by omega)
        have hn := name_append cols [c] qs [q] dirs (by omega) (by omega)
        simp only [hfil, hn]

/-- C10: the rule produced for a path does not depend on the final node's
own split data — for two trees that differ only in `feature[m]` and
`threshold[m]` at the last node `m` of the path (both feature values valid
for column selection), the materialized name and boolean vector are
identical, because only the first `len(directions)` positions of the
selected columns and thresholds are ever used. -/
theorem c10_last_split_irrelevant (t1 t2 : Tree) (X : Dataset)
    (pre : List Nat) (m : Nat) (dirs : List String)
    (hm : m ∉ pre) (hlen : dirs.length = pre.length)
    (hfeat : ∀ j, j ≠ m → t1.feature.get? j = t2.feature.get? j)
    (hthr : ∀ j, j ≠ m → t1.threshold.get? j = t2.threshold.get? j)
    (f1 f2 : Int) (q1 q2 : ℚ) (c1 c2 : String × List ℚ)
    (hf1 : t1.feature.get? m = some f1) (hf2 : t2.feature.get? m = some f2)
    (hc1 : ilocCol X f1 = .ok c1) (hc2 : ilocCol X f2 = .ok c2)
    (hq1 : t1.threshold.get? m = some q1) (hq2 : t2.threshold.get? m = some q2) :
    materializeRule t1 X (pre ++ [m]) dirs = materializeRule t2 X (pre ++ [m]) dirs := by
  have hmne : ∀ j ∈ pre, j ≠ m := fun j hj heq => hm (heq ▸ hj)
  have hfeq : pre.mapM (fun j => npGet t1.feature j) =
      pre.mapM (fun j => npGet t2.feature j) :=
    mapM_congr_except _ _ pre (fun j hj => by unfold npGet; rw [hfeat j (hmne j hj)])
  have hteq : pre.mapM (fun j => npGet t1.threshold j) =
      pre.mapM (fun j => npGet t2.threshold j) :=
    mapM_congr_except _ _ pre (fun j hj => by unfold npGet; rw [hthr j (hmne j hj)])
  rw [materializeRule_concat t1 X pre m dirs f1 q1 c1 hf1 hq1 hc1 hlen,
      materializeRule_concat t2 X pre m dirs f2 q2 c2 hf2 hq2 hc2 hlen,
      hfeq]
  simp only [hteq]

/-- A variant of `TZ` that differs only in the last path node's own split
data (node 2's feature and threshold). -/
def TZB : Tree :=
  { children_left := [-1, -1, -1]
  , children_right := [1, 2, -1]
  , feature := [0, 1, 1]
  , threshold := [5, 10, 7] }

/-- C10 witness: `TZ` and `TZB` materialize bit-identical rules on the
path [0, 1, 2]. -/
theorem c10_witness :
    materializeRule TZ X5 ([0, 1] ++ [2]) ["right", "right"] =
      materializeRule TZB X5 ([0, 1] ++ [2]) ["right", "right"] :=
  c10_last_split_irrelevant TZ TZB X5 [0, 1] 2 ["right", "right"]
    (by decide) rfl
    (fun j hj => by
      rcases j with _ | _ | _ | n
      · rfl
      · rfl
      · exact absurd rfl hj
      · rfl)
    (fun j hj => by
      rcases j with _ | _ | _ | n
      · rfl
      · rfl
      · exact absurd rfl hj
      · rfl)
    (-2) 1 (-2) 7 ("a", [6, 2]) ("b", [9, 11]) rfl rfl rfl rfl rfl rfl

end RuleFit
